import Mathlib

/-!
Verification of the multi-agent identity-investigation system.

This file gives a shallow embedding of the verification-relevant core of the
repository and proves (or refutes) the frozen specification claims about it:

* `src/multi_agents/common/judge.py` — the arbitration engine
  (`judge_candidates` and its helpers `_normalize_candidates`,
  `_winner_from_votes`, `_aggregate_confidences`, `map_index`);
* `src/multi_agents/xai/judge_xai.py` — the position-bias diagnostic
  (`bias_report_from_committee`);
* `src/multi_agents/open_deep_research/deep_researcher.py` — the supervisor
  planning/dispatch pipeline (`supervisor`, `supervisor_tools`, `_dedup`,
  `should_continue_supervisor`, `resume_after_user_choice`) and the state
  graph wiring (`create_deep_researcher`).

Modelling conventions:
* Python strings are Lean `String`s; Python `str.strip()` / `str.lower()`
  are modelled by the executable `pyStrip` / `pyLower` below (ASCII
  whitespace and ASCII case, which is what the data in question uses).
* Python floats (confidences, thresholds) are modelled as exact rationals
  `ℚ`; the code only ever averages and compares them.
* Python dicts used as integer-keyed counters are modelled as association
  lists in insertion order with distinct keys, which is exactly the
  observable behaviour of a `dict` under the operations the code performs.
* Network calls (planner oracle, evaluator committee, the LLM extraction
  passes) are modelled as oracle inputs: the functions below receive the
  oracle's already-parsed output and embed everything the repository itself
  computes from it.
-/

set_option linter.unusedVariables false

namespace IdentRev

/-! ### Python string primitives -/

/-- Drop leading ASCII whitespace characters from a character list. -/
def dropLeadingWs : List Char → List Char
  | [] => []
  | c :: cs => if c.isWhitespace then dropLeadingWs cs else c :: cs

/-- Model of Python `str.strip()`: remove leading and trailing whitespace. -/
def pyStrip (s : String) : String :=
  ⟨(dropLeadingWs ((dropLeadingWs s.data).reverse)).reverse⟩

/-- Model of Python `str.lower()` on one character (ASCII case fold). -/
def pyLowerChar (c : Char) : Char :=
  if 65 ≤ c.toNat ∧ c.toNat ≤ 90 then Char.ofNat (c.toNat + 32) else c

/-- Model of Python `str.lower()` (ASCII case fold). -/
def pyLower (s : String) : String := ⟨s.data.map pyLowerChar⟩

/-! ### Data model: candidates -/

/-- A candidate `{name, url, why}` as produced by the extractor and consumed
by the judge (`Candidate` TypedDict in `deep_researcher.py`, the normalized
dicts in `judge.py`). -/
structure Cand where
  name : String
  url : String
  why : String
deriving Repr, DecidableEq

/-- Model of `_normalize_candidates` in `judge.py`: strip the three string
fields of every incoming candidate mapping. -/
def normalizeCandidates (cands : List Cand) : List Cand :=
  cands.map (fun c => ⟨pyStrip c.name, pyStrip c.url, pyStrip c.why⟩)

/-! ### Arbitration engine (judge.py)

One evaluator invocation, as recorded in the committee output: the tag
("base" or "swap"), the candidate ordering that invocation saw, and the
parsed `winner_index` / `confidence` of its JSON reply.  A reply whose
`winner_index` is missing or malformed is recorded as `none` (the code's
degraded `{"winner_index": None, "confidence": 0.0}` result). -/

structure Invocation where
  tag : String
  runCands : List Cand
  winnerIndex : Option Int
  confidence : ℚ
deriving Repr

/-- One self-consistency run of one model: the list of tagged invocations
produced by `run_once` (a "base" invocation, plus a "swap" invocation when
swapping is enabled and there are at least two candidates). -/
structure SCRun where
  runs : List Invocation
deriving Repr

/-- One committee member's output: the model name and its self-consistency
runs (`run_self_consistency` in `judge.py`). -/
structure ModelBlock where
  model : String
  selfConsistency : List SCRun
deriving Repr

/-- All invocations of a committee output, in the order the aggregation
loops of `judge_candidates` traverse them (models × runs × tagged runs). -/
def committeeInvocations (committeeOut : List ModelBlock) : List Invocation :=
  committeeOut.flatMap (fun mb => mb.selfConsistency.flatMap (fun sc => sc.runs))

/-- Model of the inner `map_index` closure of `judge_candidates` (and of the
identical `_map_index_to_original` in `judge_xai.py`): map the local winner
index of one invocation back to an index of the original candidate list, by
exact URL match first, then case-insensitive name match. -/
def mapIndex (candList : List Cand) (runCands : List Cand) (winnerIdx : Option Int) :
    Option Nat :=
  match winnerIdx with
  | none => none
  | some w =>
    if hw : 0 ≤ w ∧ w.toNat < runCands.length then
      let chosen := runCands.get ⟨w.toNat, hw.2⟩
      match List.findIdx? (fun orig => (chosen.url != "") && (chosen.url == orig.url)) candList with
      | some i => some i
      | none =>
        List.findIdx?
          (fun orig => (chosen.name != "") && (pyLower chosen.name == pyLower orig.name))
          candList
    else
      none

/-- Model of one step of `votes[mapped] = votes.get(mapped, 0) + 1` on a
Python dict, represented as an association list in insertion order. -/
def bumpVote : List (Nat × Nat) → Nat → List (Nat × Nat)
  | [], k => [(k, 1)]
  | (k', c) :: rest, k =>
    if k' = k then (k', c + 1) :: rest else (k', c) :: bumpVote rest k

/-- Model of the vote/confidence accumulation loop of `judge_candidates`:
walk the committee invocations in order; for each invocation whose winner
maps back to an original index, bump that index's vote count and record the
invocation's confidence. -/
def tallyVotes (candList : List Cand) (invs : List Invocation) :
    List (Nat × Nat) × List ℚ :=
  invs.foldl
    (fun acc inv =>
      match mapIndex candList inv.runCands inv.winnerIndex with
      | some m => (bumpVote acc.1 m, acc.2 ++ [inv.confidence])
      | none => acc)
    ([], [])

/-- Model of `_winner_from_votes`: the first key of maximal count if that
maximum is attained by exactly one key, else `none`.  (`max` over
`dict.items()` returns the first maximal item in insertion order.) -/
def winnerFromVotes (votes : List (Nat × Nat)) : Option Nat :=
  match votes with
  | [] => none
  | v :: vs =>
    let best := (v :: vs).foldl (fun acc x => if x.2 > acc.2 then x else acc) v
    let winners := (v :: vs).filter (fun x => x.2 == best.2)
    if winners.length == 1 then some best.1 else none

/-- Model of `_aggregate_confidences`: the arithmetic mean of the collected
confidences, `0` if none were collected. -/
def aggregateConfidences (confList : List ℚ) : ℚ :=
  if confList = [] then 0 else confList.sum / confList.length

/-- Vote count of an index, `votes.get(i, 0)`. -/
def voteCount (votes : List (Nat × Nat)) (i : Nat) : Nat :=
  match votes.find? (fun p => p.1 == i) with
  | some p => p.2
  | none => 0

/-- The result record of `judge_candidates`, restricted to the fields the
claims are about.  `ranking` keeps only the candidate indices (the name and
the `votes=⋯` reason string are derived data). -/
structure JudgeOutput where
  ranking : List Nat
  winnerIndex : Option Nat
  confidence : ℚ
  shouldPauseForHuman : Bool
deriving Repr

/-- Model of the aggregation and decision tail of `judge_candidates`
(everything after the committee replies have been gathered): tally votes,
pick the plurality winner, average the counted confidences, rank the
indices by vote count descending (Python `sort` is stable), and decide
`should_pause_for_human = (winner is None) or (confidence < threshold)`. -/
def judgeDecision (candList : List Cand) (committeeOut : List ModelBlock)
    (pauseThreshold : ℚ) : JudgeOutput :=
  let tally := tallyVotes candList (committeeInvocations committeeOut)
  let votes := tally.1
  let winnerIndex := winnerFromVotes votes
  let avgConf := aggregateConfidences tally.2
  let ranking :=
    (List.range candList.length).mergeSort
      (fun i j => decide (voteCount votes j ≤ voteCount votes i))
  { ranking := ranking
    winnerIndex := winnerIndex
    confidence := avgConf
    shouldPauseForHuman := winnerIndex.isNone || decide (avgConf < pauseThreshold) }

/-- Model of `judge_candidates` at the repository's default configuration
(calibration disabled).  The evaluator committee is an oracle: `committee`
maps the normalized candidate list the evaluators are shown to the parsed
committee output.  An empty candidate list returns the fixed empty verdict
before the committee is consulted, so the result is independent of the
oracle. -/
def judgeCandidates (candidates : List Cand) (committee : List Cand → List ModelBlock)
    (pauseThreshold : ℚ) : JudgeOutput :=
  let candList := normalizeCandidates candidates
  if candList.isEmpty then
    { ranking := [], winnerIndex := none, confidence := 0, shouldPauseForHuman := false }
  else
    judgeDecision candList (committee candList) pauseThreshold

/-! ### Position-bias diagnostic (judge_xai.py) -/

/-- The last invocation of a self-consistency run carrying a given tag: the
report's loop overwrites `base_w`/`base_cands` (resp. swap) on every triple
with that tag, so only the last one survives. -/
def lastWithTag (sc : SCRun) (t : String) : Option Invocation :=
  (sc.runs.filter (fun inv => inv.tag == t)).getLast?

/-- The (base, swap) original-index pair of one self-consistency run, as
computed by `bias_report_from_committee`. -/
def scRunPair (candList : List Cand) (sc : SCRun) : Option Nat × Option Nat :=
  ((lastWithTag sc ("base")).bind (fun inv => mapIndex candList inv.runCands inv.winnerIndex),
   (lastWithTag sc ("swap")).bind (fun inv => mapIndex candList inv.runCands inv.winnerIndex))

/-- The comparable (base, swap) pairs across the whole committee: the runs
where both the base and the swap invocation resolved to an original index. -/
def biasComparablePairs (candList : List Cand) (committeeOut : List ModelBlock) :
    List (Nat × Nat) :=
  (committeeOut.flatMap (fun mb => mb.selfConsistency)).filterMap
    (fun sc =>
      match scRunPair candList sc with
      | (some b, some s) => some (b, s)
      | _ => none)

/-- Model of the `position_bias_rate` of `bias_report_from_committee`:
flips over comparable pairs, `0` if there are no comparable pairs. -/
def positionBiasRate (candList : List Cand) (committeeOut : List ModelBlock) : ℚ :=
  let pairs := biasComparablePairs candList committeeOut
  let flips := pairs.filter (fun p => p.1 != p.2)
  if pairs.length = 0 then 0 else (flips.length : ℚ) / (pairs.length : ℚ)

/-! ### Supervisor planning: batch sanitization (deep_researcher.py, `supervisor`) -/

/-- A planner tool call, abstracted to the fields the supervisor pipeline
consults: the tool name and the `url` argument (`(call.get("args") or
{}).get("url") or ""`, so a missing url is the empty string). -/
structure ToolCall where
  name : String
  argUrl : String
deriving Repr, DecidableEq

/-- The `ALLOWED_TOOLS` set of `supervisor`. -/
def allowedTools : List String :=
  [("google_search"), ("bing_search"), ("duckduckgo_search"), ("yahoo_search"),
   ("yandex_search"), ("baidu_search"),
   ("google_image_search"), ("bing_images_search"),
   ("google_lens_search"), ("google_reverse_image_search"),
   ("google_maps_search"), ("youtube_search"), ("yelp_search"), ("web_scraper")]

/-- The `BLOCKED_UNTIL_SELECTION` set (both in `supervisor` and in
`supervisor_tools`). -/
def blockedUntilSelection : List String :=
  [("google_news_search"), ("google_hotels_search")]

/-- The `broad` set of broad-search tool names used when trimming. -/
def broadSearchTools : List String :=
  [("google_search"), ("bing_search"), ("duckduckgo_search"), ("yahoo_search"),
   ("yandex_search"), ("baidu_search")]

/-- Whether a call is a broad-search action. -/
def isBroadCall (tc : ToolCall) : Bool := broadSearchTools.contains tc.name

/-- The sort key of the trimming step of `supervisor`, encoded as a number:
Python sorts `rest` ascending by the pair
`(name in broad, name != "advanced_search_and_retrieve")`, which is the
lexicographic order this numeric key realizes (`False < True`). -/
def plannerSortKey (tc : ToolCall) : Nat :=
  (if isBroadCall tc then 2 else 0) +
    (if tc.name != "advanced_search_and_retrieve" then 1 else 0)

/-- Python `sorted` is a stable sort; since `plannerSortKey` takes values in
`{0, 1, 2, 3}`, the stable ascending sort equals the concatenation of the
four key buckets in input order. -/
def sortByPlannerKey (l : List ToolCall) : List ToolCall :=
  l.filter (fun tc => plannerSortKey tc == 0) ++
    (l.filter (fun tc => plannerSortKey tc == 1) ++
      (l.filter (fun tc => plannerSortKey tc == 2) ++
        l.filter (fun tc => plannerSortKey tc == 3)))

/-- Model of the sanitization tail of `supervisor`, split into its stages.
The reflection stage keeps at most one `think_tool` call. -/
def sanitizeThink (proposed : List ToolCall) : List ToolCall :=
  (proposed.filter (fun tc => tc.name == "think_tool")).take 1

/-- The non-reflection part of the proposal after the supervisor's filters
(everything before the trimming step): drop `think_tool`, drop
`advanced_search_and_retrieve` until a candidate is selected, and keep only
allowed tools with news/hotels blocked until selection. -/
def sanitizeRest (hasSelected : Bool) (proposed : List ToolCall) : List ToolCall :=
  let rest0 := proposed.filter (fun tc => tc.name != "think_tool")
  let rest1 :=
    if hasSelected then rest0
    else rest0.filter (fun tc => tc.name != "advanced_search_and_retrieve")
  rest1.filter (fun tc =>
    allowedTools.contains tc.name &&
      (!(blockedUntilSelection.contains tc.name) || hasSelected))

/-- The sanitized batch of `supervisor`: the kept reflection call followed
by the rest, sorted stably ascending by `plannerSortKey` and capped at
`maxToolCallsPerTurn - (kept think calls)`.  `maxToolCallsPerTurn` is
`cfg.max_tool_calls_per_turn` (default 3; the module default
`MAX_TOOL_CALLS_PER_TURN` is 6); the Python `max(0, ·)` is the truncated
`Nat` subtraction. -/
def sanitizeBatch (hasSelected : Bool) (maxToolCallsPerTurn : Nat)
    (proposed : List ToolCall) : List ToolCall :=
  let think := sanitizeThink proposed
  let maxActions := maxToolCallsPerTurn - think.length
  think ++ (sortByPlannerKey (sanitizeRest hasSelected proposed)).take maxActions

/-! ### Supervisor dispatch: budget clipping and rejected-URL blocking
(deep_researcher.py, `supervisor_tools`) -/

/-- The `serpish` set of budget-charged search tools in `supervisor_tools`. -/
def serpishTools : List String :=
  [("google_search"), ("bing_search"), ("duckduckgo_search"), ("yahoo_search"),
   ("yandex_search"), ("baidu_search"),
   ("google_image_search"), ("bing_images_search"), ("google_lens_search"),
   ("google_reverse_image_search"),
   ("google_maps_search"), ("google_hotels_search"), ("google_news_search"),
   ("youtube_search"), ("yelp_search")]

/-- The image tool pair of `supervisor_tools`, in the order the forced
injection loop iterates them. -/
def imageToolNames : List String :=
  [("google_reverse_image_search"), ("google_lens_search")]

/-- Model of the `_is_blocked` closure of `supervisor_tools`: a call is
blocked when it is a `web_scraper` fetch whose url argument is in the
rejected set. -/
def isBlockedCall (rejected : List String) (call : ToolCall) : Bool :=
  call.name == "web_scraper" && rejected.contains call.argUrl

/-- The dispatched batch of one `supervisor_tools` turn, restricted to the
fields the claims are about, plus the search-call budget counter after the
turn. -/
structure DispatchBatch where
  imageCalls : List ToolCall
  nonimageCalls : List ToolCall
  otherCalls : List ToolCall
  usedAfter : Nat
deriving Repr, DecidableEq

/-- Model of the call classification, rejected-URL blocking and budget
clipping of `supervisor_tools` (the section between the planner message and
the dispatch waves): split the planner's calls into image / non-image
search calls and other calls, force-inject the two canonical image probes
when an image hint exists and the probe has not run, drop blocked fetches,
and clip the search calls to the remaining budget (image calls first,
against a reserve of 2 when the image probe is pending).  `usedAfter` is
`serp_calls_used` after the turn: the code charges `len(image_calls)` and
`len(nonimage_calls)` exactly when those lists are nonempty, which equals
charging their lengths unconditionally. -/
def planDispatch (hasSelected : Bool) (imageUrlPresent : Bool) (imageProbeDone : Bool)
    (rejectedUrls : List String) (used maxSerp : Nat) (calls : List ToolCall) :
    DispatchBatch :=
  let actionCalls := calls.filter (fun c => c.name != "think_tool")
  let conductCalls := actionCalls.filter (fun c => c.name == "conduct_research")
  let searchCalls0 := actionCalls.filter (fun c => serpishTools.contains c.name)
  let searchCalls :=
    if hasSelected then searchCalls0
    else searchCalls0.filter (fun c => !(blockedUntilSelection.contains c.name))
  let imageCallsAll0 := searchCalls.filter (fun c => imageToolNames.contains c.name)
  let nonimageCallsAll := searchCalls.filter (fun c => !(imageToolNames.contains c.name))
  let imageCallsAll :=
    if imageUrlPresent && !imageProbeDone then
      let haveNames := imageCallsAll0.map (fun c => c.name)
      imageCallsAll0 ++
        (imageToolNames.filter (fun nm => !(haveNames.contains nm))).map (fun nm => ⟨nm, ""⟩)
    else imageCallsAll0
  let otherCalls0 :=
    actionCalls.filter (fun c => !(conductCalls.contains c) && !(searchCalls.contains c))
  let imageCallsAll1 := imageCallsAll.filter (fun c => !(isBlockedCall rejectedUrls c))
  let nonimageCallsAll1 := nonimageCallsAll.filter (fun c => !(isBlockedCall rejectedUrls c))
  let otherCalls := otherCalls0.filter (fun c => !(isBlockedCall rejectedUrls c))
  let remaining := maxSerp - used
  let reserveForImages := if imageUrlPresent && !imageProbeDone then 2 else 0
  let budgetForImages :=
    min imageCallsAll1.length
      (if reserveForImages ≠ 0 then min remaining reserveForImages else remaining)
  let imageCalls := imageCallsAll1.take budgetForImages
  let remainingAfterImages := remaining - imageCalls.length
  let nonimageCalls := nonimageCallsAll1.take remainingAfterImages
  { imageCalls := imageCalls
    nonimageCalls := nonimageCalls
    otherCalls := otherCalls
    usedAfter := used + imageCalls.length + nonimageCalls.length }

/-- The oracle inputs of one dispatch turn: the flags and planner calls that
feed `planDispatch`.  (`rejected` is the turn's `rejected_urls`.) -/
structure TurnInput where
  hasSelected : Bool
  imageUrlPresent : Bool
  imageProbeDone : Bool
  rejected : List String
  calls : List ToolCall
deriving Repr

/-- The `serp_calls_used` counter after a sequence of dispatch turns,
starting from the `0` that `init_state` / `write_research_brief` set. -/
def runSerpCallsUsed (maxSerp : Nat) (turns : List TurnInput) : Nat :=
  turns.foldl
    (fun used t =>
      (planDispatch t.hasSelected t.imageUrlPresent t.imageProbeDone t.rejected
          used maxSerp t.calls).usedAfter)
    0

/-! ### Candidate deduplication and the per-turn candidate pipeline -/

/-- The dedup key of `_dedup` in `supervisor_tools`: the stripped, lowered
url if nonempty, else the stripped, lowered name (`key = u or n`). -/
def candKey (c : Cand) : String :=
  let u := pyLower (pyStrip c.url)
  let n := pyLower (pyStrip c.name)
  if u != "" then u else n

/-- The loop of `_dedup` with its `seen` set of already-kept keys. -/
def dedupGo (seen : List String) : List Cand → List Cand
  | [] => []
  | c :: rest =>
    let key := candKey c
    if key == "" || seen.contains key then dedupGo seen rest
    else c :: dedupGo (key :: seen) rest

/-- Model of the `_dedup` helper of `supervisor_tools`: first-seen-wins
deduplication by `candKey`, dropping entries whose key is empty.  (The
`str(·)` re-packing of the kept entry is the identity here because the
fields are already strings.) -/
def dedupCands (lst : List Cand) : List Cand := dedupGo [] lst

/-- Model of the per-turn candidate pipeline of the non-image search branch
of `supervisor_tools`: structural SERP candidates are filtered against the
rejected URL set and deduplicated; the optional LLM top-up pass merges its
(already stripped) extra candidates through `_dedup` WITHOUT filtering them
against the rejected set; if the combined list is empty, the fallback
summary-extraction pass returns its own deduplicated candidates, again
without any rejected-URL filtering.  `extraCands` and `summaryExtract` are
the parsed outputs of the two LLM extraction oracles. -/
def turnCandidates (rejected : List String) (serpExtracted : List Cand)
    (extraCands : List Cand) (summaryExtract : List Cand) : List Cand :=
  let serpFiltered := serpExtracted.filter (fun c => !(rejected.contains c.url))
  let combined := dedupCands serpFiltered
  let combined2 := dedupCands (combined ++ extraCands)
  if !combined2.isEmpty then combined2 else dedupCands summaryExtract

/-! ### Run controller: resume semantics (`resume_after_user_choice`) -/

/-- The slice of `DeepResearchState` that `resume_after_user_choice`
touches.  `rejectedUrls` is a Python list consumed exclusively through
`set(...)` membership; `list(set(a))` returns its elements in unspecified
order, which we fix as first-occurrence order — every claim about it is
membership-only. -/
structure ResumeState where
  candidates : List Cand
  selectedCandidate : Option Cand
  awaitingDisambiguation : Bool
  rejectedUrls : List String
  messages : List String
deriving Repr

/-- Model of `resume_after_user_choice`: an in-range selection index commits
the indexed candidate; any out-of-range index (negative or too large) is
"reject all": the url of every currently proposed candidate that has one is
added to `rejected_urls`, the candidate list is cleared, and a trace
message is appended.  Both paths clear `awaiting_disambiguation`. -/
def resumeAfterUserChoice (prev : ResumeState) (selectionIndex : Int) : ResumeState :=
  let candList := prev.candidates
  let choseNone : Bool := selectionIndex < 0 || (candList.length : Int) ≤ selectionIndex
  let chosen : Option Cand := if choseNone then none else candList[selectionIndex.toNat]?
  if choseNone then
    let rejected := (candList.filter (fun c => c.url != "")).map (fun c => c.url)
    { prev with
      selectedCandidate := none
      awaitingDisambiguation := false
      rejectedUrls := (prev.rejectedUrls ++ rejected).dedup
      candidates := []
      messages := prev.messages ++
        [("User rejected all proposed candidates. Do not scrape or follow these URLs again.")] }
  else
    { prev with
      selectedCandidate := chosen
      awaitingDisambiguation := false
      messages := prev.messages ++ [("User selected candidate.")] }

/-! ### The supervision loop graph (`create_deep_researcher`,
`should_continue_supervisor`, the early-stop safety valve) -/

/-- One planner-channel message, abstracted to its tool calls (tool
messages and plain AI messages carry none). -/
structure PlannerMsg where
  toolCalls : List ToolCall
deriving Repr, DecidableEq

/-- The graph nodes reachable once the brief is written. -/
inductive GraphNode
  | supervisor
  | supervisorTools
  | endNode
deriving Repr, DecidableEq

/-- The slice of `DeepResearchState` that the loop routing consults, plus
the `stop_now` key the early-stop return emits. -/
structure SupervisorState where
  awaitingDisambiguation : Bool
  supervisorIterations : Nat
  plannerMessages : List PlannerMsg
  stopNow : Bool
deriving Repr, DecidableEq

/-- Model of `getattr(c, "name", "")` in `should_continue_supervisor`: the
elements of `tool_calls` are plain dicts, so attribute lookup always falls
back to the default `""`, whatever the call's `"name"` entry is. -/
def getattrName (c : ToolCall) : String := ""

/-- Model of `should_continue_supervisor`: end on a pending human
disambiguation, an empty planner channel, exhausted iterations, a last
message without tool calls, or an explicit `research_complete` call (the
latter test uses `getattrName`, see there); otherwise continue to the
dispatch node.  Note that `stop_now` is not consulted anywhere. -/
def shouldContinueSupervisor (maxIters : Nat) (s : SupervisorState) : GraphNode :=
  if s.awaitingDisambiguation then .endNode
  else if s.plannerMessages.isEmpty then .endNode
  else
    let calls := ((s.plannerMessages.getLast?).map (fun m => m.toolCalls)).getD []
    if maxIters ≤ s.supervisorIterations then .endNode
    else if calls.isEmpty then .endNode
    else if calls.any (fun c => getattrName c == "research_complete") then .endNode
    else .supervisorTools

/-- Model of the graph wiring of `create_deep_researcher`: the edge out of
`supervisor` is the conditional `should_continue_supervisor`; the edge out
of `supervisor_tools` is unconditional to `supervisor`. -/
def graphNext (maxIters : Nat) : GraphNode → SupervisorState → GraphNode
  | .supervisor, s => shouldContinueSupervisor maxIters s
  | .supervisorTools, _ => .supervisor
  | .endNode, _ => .endNode

/-- Model of the early-stop return of `supervisor_tools` (the "no
actionable candidates or URLs" safety valve), restricted to the routing
state: the emitted tool messages are appended to the planner channel (they
carry no tool calls), `awaiting_disambiguation` is cleared, and the
`stop_now: True` key is emitted. -/
def earlyStopUpdate (s : SupervisorState) : SupervisorState :=
  { s with
    awaitingDisambiguation := false
    stopNow := true
    plannerMessages := s.plannerMessages ++ [⟨[]⟩] }

/-- Model of the `supervisor` node's state update: it appends one AI
message carrying the sanitized tool-call batch and increments the
iteration counter. -/
def supervisorUpdate (s : SupervisorState) (sanitizedCalls : List ToolCall) :
    SupervisorState :=
  { s with
    plannerMessages := s.plannerMessages ++ [⟨sanitizedCalls⟩]
    supervisorIterations := s.supervisorIterations + 1 }

/-! ### Specification-side restatements (for refinement comparisons)

These definitions follow the words of the specification (not the code) and
are only used to compare against the embedded code. -/

/-- Spec-side dedup key exactly as the claim states it: "url if present,
else lowercase name". -/
def claimKey (c : Cand) : String :=
  if c.url != "" then c.url else pyLower c.name

/-- Spec-side first-seen-wins dedup by `claimKey`: an element is kept iff
its key is nonempty and no earlier element carries the same key. -/
def claimDedupAux (priorKeys : List String) : List Cand → List Cand
  | [] => []
  | c :: rest =>
    if claimKey c ≠ "" ∧ claimKey c ∉ priorKeys then
      c :: claimDedupAux (claimKey c :: priorKeys) rest
    else
      claimDedupAux (claimKey c :: priorKeys) rest

/-- Spec-side dedup by the claim's literal key. -/
def claimDedup (l : List Cand) : List Cand := claimDedupAux [] l

/-- Amended-spec dedup key: the stripped, lowercased url if nonempty, else
the stripped, lowercased name — i.e. `candKey`, restated through the
keep-iff-no-earlier-equal-key formulation rather than the seen-set loop. -/
def specDedupAux (priorKeys : List String) : List Cand → List Cand
  | [] => []
  | c :: rest =>
    if candKey c ≠ "" ∧ candKey c ∉ priorKeys then
      c :: specDedupAux (candKey c :: priorKeys) rest
    else
      specDedupAux (candKey c :: priorKeys) rest

/-- Amended-spec first-seen-wins dedup: keep an element iff its `candKey`
is nonempty and no earlier element of the input has the same key. -/
def specDedup (l : List Cand) : List Cand := specDedupAux [] l

/-- The invocations whose local winner mapped back to an original candidate
index — the "counted votes" of the specification's confidence sentence. -/
def countedInvocations (candList : List Cand) (invs : List Invocation) :
    List Invocation :=
  invs.filter (fun inv => (mapIndex candList inv.runCands inv.winnerIndex).isSome)

/-- Spec-side confidence: the arithmetic mean of the confidences of all
counted invocations, `0` when there are none. -/
def specMeanCountedConfidence (candList : List Cand) (committeeOut : List ModelBlock) : ℚ :=
  let confs :=
    (countedInvocations candList (committeeInvocations committeeOut)).map
      (fun inv => inv.confidence)
  if confs = [] then 0 else confs.sum / confs.length

/-! ### Concrete instances used by witnesses and counterexamples -/

/-- Two distinct, already-normalized candidates. -/
def candA : Cand := ⟨("A"), ("http://a"), ("a-site")⟩

/-- Second candidate. -/
def candB : Cand := ⟨("B"), ("http://b"), ("b-site")⟩

/-- A committee output exhibiting position bias with a confident plurality
winner: one model, two self-consistency runs over `[candA, candB]`; every
invocation reports confidence `9/10`; the first run's swap invocation
follows the first position (a flip), the second run's does not. -/
def biasedCommittee : List Cand → List ModelBlock := fun candList =>
  [⟨("m1"),
    [⟨[⟨("base"), candList, some 0, 9/10⟩,
       ⟨("swap"), candList.reverse, some 0, 9/10⟩]⟩,
     ⟨[⟨("base"), candList, some 0, 9/10⟩,
       ⟨("swap"), candList.reverse, some 1, 9/10⟩]⟩]⟩]

/-- A committee output producing a perfect 1–1 tie over two candidates:
one model, one self-consistency run; the base invocation picks the first
position and the swap invocation also picks the first position (which is
the other candidate). -/
def tieCommittee : List ModelBlock :=
  [⟨("m1"),
    [⟨[⟨("base"), [candA, candB], some 0, 1/2⟩,
       ⟨("swap"), [candB, candA], some 0, 1/2⟩]⟩]⟩]

/-- Scenario A's single candidate. -/
def scenarioACands : List Cand := [⟨("X"), ("http://x"), ("match")⟩]

/-- Scenario A's committee: three evaluators, one base invocation each
(no swap with fewer than two candidates), all voting index 0 with
confidence `9/10`. -/
def scenarioACommittee : List Cand → List ModelBlock := fun candList =>
  [⟨("m1"), [⟨[⟨("base"), candList, some 0, 9/10⟩]⟩]⟩,
   ⟨("m2"), [⟨[⟨("base"), candList, some 0, 9/10⟩]⟩]⟩,
   ⟨("m3"), [⟨[⟨("base"), candList, some 0, 9/10⟩]⟩]⟩]

/-- A committee oracle that returns no model blocks at all (every evaluator
failed or none were selected). -/
def emptyCommittee : List Cand → List ModelBlock := fun _ => []

/-- The routing state at the end of a turn whose only planner message
proposed one search call; used to trace the loop after the early-stop
safety valve fires. -/
def demoSupState : SupervisorState :=
  ⟨false, 1, [⟨[⟨("google_search"), ("")⟩]⟩], false⟩

/-- A resume state with one proposed candidate and one previously rejected
URL. -/
def demoResumeState : ResumeState :=
  ⟨[candA], none, true, [("http://old")], []⟩

/-! ## Theorems -/

/-! ### Shared helper lemmas -/

/-- Taking `n` elements yields at most `n` elements. -/
theorem take_length_le {α : Type} (l : List α) (n : Nat) : (l.take n).length ≤ n := by
  simp [List.length_take]

/-- Single-turn preservation of the search budget: if `serp_calls_used` is
within the ceiling before a `supervisor_tools` turn, it still is after the
turn's clipping and charging. -/
theorem planDispatch_usedAfter_le (hasSelected imageUrlPresent imageProbeDone : Bool)
    (rejectedUrls : List String) (used maxSerp : Nat) (calls : List ToolCall)
    (h : used ≤ maxSerp) :
    (planDispatch hasSelected imageUrlPresent imageProbeDone rejectedUrls used maxSerp
        calls).usedAfter ≤ maxSerp := by
  simp only [planDispatch]
  split_ifs <;>
    · simp only [List.length_take]
      omega

/-- Claim C9: an adjudication over an empty candidate list returns the
fixed empty verdict — empty ranking, no winner, confidence `0`, and no
human pause — for every committee oracle and threshold; in particular the
result never depends on the evaluators, which are never consulted. -/
theorem judge_empty_candidates (committee : List Cand → List ModelBlock) (t : ℚ) :
    judgeCandidates [] committee t =
      { ranking := [], winnerIndex := none, confidence := 0, shouldPauseForHuman := false } :=
  rfl

/-- Claim C2: across every sequence of turns — whatever the planner
proposes, including over-budget batches — the consumed search-call counter
after any turn stays at or below the configured ceiling: each turn's batch
is clipped to the remaining budget before dispatch. -/
theorem serp_budget_invariant (maxSerp : Nat) (turns : List TurnInput) :
    runSerpCallsUsed maxSerp turns ≤ maxSerp := by
  suffices h : ∀ (ts : List TurnInput) (used : Nat), used ≤ maxSerp →
      ts.foldl
        (fun u t =>
          (planDispatch t.hasSelected t.imageUrlPresent t.imageProbeDone t.rejected
              u maxSerp t.calls).usedAfter)
        used ≤ maxSerp by
    exact h turns 0 (Nat.zero_le _)
  intro ts
  induction ts with
  | nil => intro used hu; simpa using hu
  | cons t ts ih =>
    intro used hu
    exact ih _ (planDispatch_usedAfter_le t.hasSelected t.imageUrlPresent t.imageProbeDone
      t.rejected used maxSerp t.calls hu)

/-- Claim C7 (code-bug evidence): the early-stop safety valve does not stop
the run.  `should_continue_supervisor` never consults the `stop_now` key
the valve emits; the graph edge out of `supervisor_tools` is unconditional,
so after the valve fires the planner node runs again, and if that planning
turn proposes another call within the iteration limit the run proceeds to
dispatch it instead of stopping. -/
theorem early_stop_not_terminal :
    (∀ (maxIters : Nat) (s : SupervisorState),
      shouldContinueSupervisor maxIters { s with stopNow := true } =
        shouldContinueSupervisor maxIters { s with stopNow := false }) ∧
    (earlyStopUpdate demoSupState).stopNow = true ∧
    graphNext 20 GraphNode.supervisorTools (earlyStopUpdate demoSupState) =
      GraphNode.supervisor ∧
    shouldContinueSupervisor 20
        (supervisorUpdate (earlyStopUpdate demoSupState) [⟨("bing_search"), ("")⟩]) =
      GraphNode.supervisorTools := by
  refine ⟨fun maxIters s => rfl, rfl, rfl, ?_⟩
  decide

/-- Claim C10: `resume_after_user_choice` clears the awaiting flag; an
out-of-range selection index behaves as "reject all" — no selected
candidate, the candidate list cleared, every previously rejected URL still
rejected, and the URL of every currently proposed candidate that has one
added to the rejected set; an in-range index commits the indexed candidate
and leaves the rejected set and the candidate list unchanged. -/
theorem resume_semantics (prev : ResumeState) (idx : Int) :
    (resumeAfterUserChoice prev idx).awaitingDisambiguation = false ∧
    (if idx < 0 ∨ (prev.candidates.length : Int) ≤ idx then
      (resumeAfterUserChoice prev idx).selectedCandidate = none ∧
      (resumeAfterUserChoice prev idx).candidates = [] ∧
      (∀ u ∈ prev.rejectedUrls, u ∈ (resumeAfterUserChoice prev idx).rejectedUrls) ∧
      (∀ c ∈ prev.candidates, c.url ≠ "" →
        c.url ∈ (resumeAfterUserChoice prev idx).rejectedUrls)
    else
      (resumeAfterUserChoice prev idx).selectedCandidate =
        prev.candidates[idx.toNat]? ∧
      (resumeAfterUserChoice prev idx).selectedCandidate.isSome = true ∧
      (resumeAfterUserChoice prev idx).rejectedUrls = prev.rejectedUrls ∧
      (resumeAfterUserChoice prev idx).candidates = prev.candidates) := by
  by_cases hnone : idx < 0 ∨ (prev.candidates.length : Int) ≤ idx
  · have hb : (idx < 0 || (prev.candidates.length : Int) ≤ idx) = true := by
      rcases hnone with h | h
      · simp [h]
      · simp [h]
    refine ⟨?_, ?_⟩
    · simp [resumeAfterUserChoice, hb]
    · rw [if_pos hnone]
      refine ⟨?_, ?_, ?_, ?_⟩
      · simp [resumeAfterUserChoice, hb]
      · simp [resumeAfterUserChoice, hb]
      · intro u hu
        simp only [resumeAfterUserChoice, hb]
        simp [List.mem_dedup, hu]
      · intro c hc hurl
        simp only [resumeAfterUserChoice, hb]
        simp only [if_true, List.mem_dedup, List.mem_append]
        right
        refine List.mem_map.mpr ⟨c, ?_, rfl⟩
        refine List.mem_filter.mpr ⟨hc, ?_⟩
        simpa using hurl
  · have hb : (idx < 0 || (prev.candidates.length : Int) ≤ idx) = false := by
      push_neg at hnone
      simp [hnone.1.not_lt, hnone.2.not_le]
    refine ⟨?_, ?_⟩
    · simp [resumeAfterUserChoice, hb]
    · rw [if_neg hnone]
      push_neg at hnone
      refine ⟨?_, ?_, ?_, ?_⟩
      · simp [resumeAfterUserChoice, hb]
      · have hlt : idx.toNat < prev.candidates.length := by omega
        simp [resumeAfterUserChoice, hb, List.getElem?_eq_getElem hlt]
      · simp [resumeAfterUserChoice, hb]
      · simp [resumeAfterUserChoice, hb]

/-- Witness for `resume_semantics` at an out-of-range index: with one
proposed candidate and one previously rejected URL, resuming with index 5
clears the candidates and the rejected set contains both the old URL and
the proposed candidate's URL. -/
theorem resume_semantics_witness :
    (resumeAfterUserChoice demoResumeState 5).candidates = [] ∧
    ("http://old") ∈ (resumeAfterUserChoice demoResumeState 5).rejectedUrls ∧
    ("http://a") ∈ (resumeAfterUserChoice demoResumeState 5).rejectedUrls := by
  have h := resume_semantics demoResumeState 5
  have hcond : (5 : Int) < 0 ∨ ((demoResumeState.candidates.length : Int) ≤ 5) := by
    right; decide
  rw [if_pos hcond] at h
  exact ⟨h.2.2.1,
    h.2.2.2.1 ("http://old") (by decide),
    h.2.2.2.2 candA (by decide) (by decide)⟩

/-- The running maximum of `_winner_from_votes` is one of the candidates it
scanned. -/
theorem foldlMax_mem (l : List (Nat × Nat)) :
    ∀ init : Nat × Nat,
      l.foldl (fun acc x => if x.2 > acc.2 then x else acc) init ∈ init :: l := by
  induction l with
  | nil => intro init; simp
  | cons x xs ih =>
    intro init
    simp only [List.foldl_cons]
    have h := ih (if x.2 > init.2 then x else init)
    rcases List.mem_cons.mp h with h | h
    · rw [h]
      by_cases hx : x.2 > init.2
      · simp [hx]
      · simp [hx]
    · exact List.mem_cons_of_mem _ (List.mem_cons_of_mem _ h)

/-- The running maximum of `_winner_from_votes` dominates every scanned
count. -/
theorem foldlMax_ge (l : List (Nat × Nat)) :
    ∀ init : Nat × Nat, ∀ x ∈ init :: l,
      x.2 ≤ (l.foldl (fun acc x => if x.2 > acc.2 then x else acc) init).2 := by
  induction l with
  | nil =>
    intro init x hx
    rcases List.mem_cons.mp hx with h | h
    · simp [h]
    · simp at h
  | cons y ys ih =>
    intro init x hx
    simp only [List.foldl_cons]
    have hstepInit : init.2 ≤ (if y.2 > init.2 then y else init).2 := by
      by_cases hy : y.2 > init.2
      · simp only [hy, if_true]; omega
      · simp [hy]
    have hstepY : y.2 ≤ (if y.2 > init.2 then y else init).2 := by
      by_cases hy : y.2 > init.2
      · simp [hy]
      · simp only [hy, if_false]; omega
    have htail := ih (if y.2 > init.2 then y else init)
    rcases List.mem_cons.mp hx with h | h
    · rw [h]
      exact le_trans hstepInit (htail _ (List.mem_cons_self _ _))
    · rcases List.mem_cons.mp h with h2 | h2
      · rw [h2]
        exact le_trans hstepY (htail _ (List.mem_cons_self _ _))
      · exact htail x (List.mem_cons_of_mem _ h2)

/-- Two distinct members force a length of at least two. -/
theorem one_lt_length_of_two_mem {α : Type} {a b : α} {l : List α}
    (hab : a ≠ b) (ha : a ∈ l) (hb : b ∈ l) : 1 < l.length := by
  cases l with
  | nil => simp at ha
  | cons x xs =>
    rcases List.mem_cons.mp ha with rfl | ha
    · rcases List.mem_cons.mp hb with rfl | hb
      · exact absurd rfl hab
      · have := List.length_pos_of_mem hb
        simp only [List.length_cons]
        omega
    · have := List.length_pos_of_mem ha
      simp only [List.length_cons]
      omega

/-- Claim C5: votes are tallied per original candidate index across the
whole committee, and the winner requires a strict plurality: whenever two
distinct indices share the maximal vote count, the adjudication returns no
winner and pauses for a human — a tie is never broken silently. -/
theorem tie_yields_no_winner (candList : List Cand) (committeeOut : List ModelBlock)
    (t : ℚ) (i j c : Nat) (hij : i ≠ j)
    (hi : (i, c) ∈ (tallyVotes candList (committeeInvocations committeeOut)).1)
    (hj : (j, c) ∈ (tallyVotes candList (committeeInvocations committeeOut)).1)
    (hmax : ∀ p ∈ (tallyVotes candList (committeeInvocations committeeOut)).1, p.2 ≤ c) :
    (judgeDecision candList committeeOut t).winnerIndex = none ∧
    (judgeDecision candList committeeOut t).shouldPauseForHuman = true := by
  have hwin : winnerFromVotes (tallyVotes candList (committeeInvocations committeeOut)).1
      = none := by
    cases hvs : (tallyVotes candList (committeeInvocations committeeOut)).1 with
    | nil => rw [hvs] at hi; simp at hi
    | cons v vs =>
      rw [hvs] at hi hj hmax
      simp only [winnerFromVotes]
      set best := (v :: vs).foldl (fun acc x => if x.2 > acc.2 then x else acc) v with hbest
      have hbmem : best ∈ v :: vs := by
        have h := foldlMax_mem (v :: vs) v
        rcases List.mem_cons.mp h with h | h
        · rw [hbest, h]; exact List.mem_cons_self _ _
        · exact h
      have hble : best.2 ≤ c := hmax best hbmem
      have hcle : c ≤ best.2 := foldlMax_ge (v :: vs) v (i, c) (List.mem_cons_of_mem _ hi)
      have hbc : best.2 = c := le_antisymm hble hcle
      have hifil : (i, c) ∈ (v :: vs).filter (fun x => x.2 == best.2) :=
        List.mem_filter.mpr ⟨hi, by simp [hbc]⟩
      have hjfil : (j, c) ∈ (v :: vs).filter (fun x => x.2 == best.2) :=
        List.mem_filter.mpr ⟨hj, by simp [hbc]⟩
      have hne : ((i, c) : Nat × Nat) ≠ (j, c) := by
        intro hcontra
        exact hij (congrArg Prod.fst hcontra)
      have hlen := one_lt_length_of_two_mem hne hifil hjfil
      have hlenne : (((v :: vs).filter (fun x => x.2 == best.2)).length == 1) = false := by
        simp only [beq_eq_false_iff_ne, ne_eq]
        omega
      simp [hlenne]
  refine ⟨?_, ?_⟩
  · simpa [judgeDecision] using hwin
  · simp [judgeDecision, hwin]


/-- Witness for `tie_yields_no_winner`: two candidates, one model, one
self-consistency run whose base invocation picks the first position and
whose swap invocation also picks the first position — a perfect 1–1 tie —
yields no winner and a pause. -/
theorem tie_yields_no_winner_witness :
    (judgeDecision [candA, candB] tieCommittee (6/10)).winnerIndex = none ∧
    (judgeDecision [candA, candB] tieCommittee (6/10)).shouldPauseForHuman = true :=
  tie_yields_no_winner [candA, candB] tieCommittee (6/10) 0 1 1
    (by decide) (by decide) (by decide) (by decide)

/-- Every element kept by the dedup loop has a nonempty key that was not in
the seen set. -/
theorem dedupGo_keys (l : List Cand) :
    ∀ seen : List String, ∀ d ∈ dedupGo seen l, candKey d ≠ "" ∧ candKey d ∉ seen := by
  induction l with
  | nil => intro seen d hd; simp [dedupGo] at hd
  | cons c rest ih =>
    intro seen d hd
    by_cases h : (candKey c == "" || seen.contains (candKey c)) = true
    · rw [dedupGo, if_pos h] at hd
      exact ih seen d hd
    · rw [dedupGo, if_neg h] at hd
      simp only [Bool.or_eq_true, beq_iff_eq, not_or] at h
      obtain ⟨hne, hnc⟩ := h
      rcases List.mem_cons.mp hd with rfl | hd
      · refine ⟨hne, fun hmem => hnc ?_⟩
        simp [hmem]
      · have h3 := ih (candKey c :: seen) d hd
        exact ⟨h3.1, fun hmem => h3.2 (List.mem_cons_of_mem _ hmem)⟩

/-- Re-running the dedup loop on its own output (under a seen set disjoint
from the output's keys) changes nothing. -/
theorem dedupGo_idem_aux (l : List Cand) :
    ∀ seen seen2 : List String,
      (∀ d ∈ dedupGo seen l, candKey d ∉ seen2) →
      dedupGo seen2 (dedupGo seen l) = dedupGo seen l := by
  induction l with
  | nil => intro seen seen2 h; simp [dedupGo]
  | cons c rest ih =>
    intro seen seen2 h
    by_cases hc : (candKey c == "" || seen.contains (candKey c)) = true
    · rw [dedupGo, if_pos hc] at h ⊢
      exact ih seen seen2 h
    · rw [dedupGo, if_neg hc] at h ⊢
      have hcprop := hc
      simp only [Bool.or_eq_true, beq_iff_eq, not_or] at hcprop
      have hc2 : candKey c ∉ seen2 := h c (List.mem_cons_self _ _)
      have hcond2 : ¬((candKey c == "" || seen2.contains (candKey c)) = true) := by
        simp only [Bool.or_eq_true, beq_iff_eq, not_or]
        exact ⟨hcprop.1, by simpa using hc2⟩
      rw [dedupGo, if_neg hcond2]
      congr 1
      apply ih (candKey c :: seen) (candKey c :: seen2)
      intro d hd
      have h1 := dedupGo_keys rest (candKey c :: seen) d hd
      have h2 : candKey d ∉ seen2 := h d (List.mem_cons_of_mem _ hd)
      intro hmem
      rcases List.mem_cons.mp hmem with heq | hmem2
      · exact h1.2 (heq ▸ List.mem_cons_self _ _)
      · exact h2 hmem2

/-- The seen-set loop of `_dedup` computes the keep-iff-no-earlier-equal-key
dedup: the `seen` set (keys of kept elements) and the `prior` set (keys of
all earlier elements) agree on nonempty keys. -/
theorem dedupGo_eq_specDedupAux (l : List Cand) :
    ∀ seen prior : List String,
      (∀ k, k ∈ seen → k ∈ prior) →
      (∀ k, k ≠ "" → k ∈ prior → k ∈ seen) →
      dedupGo seen l = specDedupAux prior l := by
  induction l with
  | nil => intro seen prior h1 h2; simp [dedupGo, specDedupAux]
  | cons c rest ih =>
    intro seen prior h1 h2
    by_cases hk : candKey c = ""
    · rw [dedupGo, if_pos (by simp [hk]), specDedupAux, if_neg (by simp [hk])]
      apply ih seen (candKey c :: prior)
      · exact fun k hk2 => List.mem_cons_of_mem _ (h1 k hk2)
      · intro k hkne hkp
        rcases List.mem_cons.mp hkp with rfl | hkp
        · exact absurd hk hkne
        · exact h2 k hkne hkp
    · by_cases hs : candKey c ∈ seen
      · have hp : candKey c ∈ prior := h1 _ hs
        rw [dedupGo, if_pos (by simp [hs]), specDedupAux,
          if_neg (by simp [hp])]
        apply ih seen (candKey c :: prior)
        · exact fun k hk2 => List.mem_cons_of_mem _ (h1 k hk2)
        · intro k hkne hkp
          rcases List.mem_cons.mp hkp with rfl | hkp
          · exact hs
          · exact h2 k hkne hkp
      · have hnp : candKey c ∉ prior := fun hp => hs (h2 _ hk hp)
        rw [dedupGo, if_neg (by simp [hk, hs]), specDedupAux, if_pos ⟨hk, hnp⟩]
        congr 1
        apply ih (candKey c :: seen) (candKey c :: prior)
        · intro k hk2
          rcases List.mem_cons.mp hk2 with rfl | hk2
          · exact List.mem_cons_self _ _
          · exact List.mem_cons_of_mem _ (h1 k hk2)
        · intro k hkne hkp
          rcases List.mem_cons.mp hkp with rfl | hkp
          · exact List.mem_cons_self _ _
          · exact List.mem_cons_of_mem _ (h2 k hkne hkp)

/-- Claim C8, amended: `_dedup` deduplicates first-seen-wins by the
stripped, LOWERCASED url when nonempty (else the stripped, lowercased
name) — equivalently, it keeps an element iff its key is nonempty and no
earlier element carries the same key — and it is idempotent: re-running it
on its own output returns the output unchanged. -/
theorem dedup_idempotent_amended (l : List Cand) :
    dedupCands (dedupCands l) = dedupCands l ∧ dedupCands l = specDedup l := by
  constructor
  · exact dedupGo_idem_aux l [] [] (fun d _ hmem => by simp at hmem)
  · exact dedupGo_eq_specDedupAux l [] []
      (fun k hk => by simp at hk) (fun k _ hk => by simp at hk)

/-- Counterexample to claim C8 as stated: the dedup key is not the raw
`url` — the code strips and lowercases it.  Two candidates whose urls
differ only by letter case collapse to one under `_dedup`, while the
claim's key keeps both. -/
theorem dedup_key_counterexample :
    dedupCands [⟨("x"), ("HTTP://A"), ("w1")⟩, ⟨("y"), ("http://a"), ("w2")⟩] =
      [⟨("x"), ("HTTP://A"), ("w1")⟩] ∧
    claimDedup [⟨("x"), ("HTTP://A"), ("w1")⟩, ⟨("y"), ("http://a"), ("w2")⟩] =
      [⟨("x"), ("HTTP://A"), ("w1")⟩, ⟨("y"), ("http://a"), ("w2")⟩] ∧
    dedupCands [⟨("x"), ("HTTP://A"), ("w1")⟩, ⟨("y"), ("http://a"), ("w2")⟩] ≠
      claimDedup [⟨("x"), ("HTTP://A"), ("w1")⟩, ⟨("y"), ("http://a"), ("w2")⟩] := by
  refine ⟨by decide, by decide, by decide⟩

/-- The planner sort key is at most 3. -/
theorem plannerSortKey_le (tc : ToolCall) : plannerSortKey tc ≤ 3 := by
  simp only [plannerSortKey]
  split_ifs <;> omega

/-- A broad-search call has the maximal sort key (no broad name is the
`advanced_search_and_retrieve` tool). -/
theorem plannerSortKey_of_broad (tc : ToolCall) (h : isBroadCall tc = true) :
    plannerSortKey tc = 3 := by
  have hmem : tc.name ∈ broadSearchTools := by simpa [isBroadCall] using h
  have hne : tc.name ≠ "advanced_search_and_retrieve" := by
    have hall : ∀ s ∈ broadSearchTools, s ≠ ("advanced_search_and_retrieve") := by decide
    exact hall _ hmem
  simp [plannerSortKey, h, hne]

/-- A narrow (non-broad) call has sort key 0 or 1. -/
theorem plannerSortKey_of_narrow (tc : ToolCall) (h : isBroadCall tc = false) :
    plannerSortKey tc = 0 ∨ plannerSortKey tc = 1 := by
  cases hb : (tc.name != "advanced_search_and_retrieve") <;>
    simp [plannerSortKey, h, hb]

/-- The stable bucket sort preserves membership. -/
theorem mem_sortByPlannerKey (l : List ToolCall) (tc : ToolCall) :
    tc ∈ sortByPlannerKey l ↔ tc ∈ l := by
  constructor
  · intro h
    simp only [sortByPlannerKey, List.mem_append, List.mem_filter] at h
    rcases h with ⟨h, _⟩ | ⟨h, _⟩ | ⟨h, _⟩ | ⟨h, _⟩ <;> exact h
  · intro h
    have hk := plannerSortKey_le tc
    have hcase : plannerSortKey tc = 0 ∨ plannerSortKey tc = 1 ∨
        plannerSortKey tc = 2 ∨ plannerSortKey tc = 3 := by omega
    simp only [sortByPlannerKey, List.mem_append, List.mem_filter]
    rcases hcase with h0 | h1 | h2 | h3
    · exact Or.inl ⟨h, by simp [h0]⟩
    · exact Or.inr (Or.inl ⟨h, by simp [h1]⟩)
    · exact Or.inr (Or.inr (Or.inl ⟨h, by simp [h2]⟩))
    · exact Or.inr (Or.inr (Or.inr ⟨h, by simp [h3]⟩))

/-- Members of the filtered rest are not reflection calls. -/
theorem mem_sanitizeRest_not_think (hasSelected : Bool) (proposed : List ToolCall)
    (tc : ToolCall) (h : tc ∈ sanitizeRest hasSelected proposed) :
    (tc.name == "think_tool") = false := by
  simp only [sanitizeRest] at h
  have h1 := (List.mem_filter.mp h).1
  by_cases hsel : hasSelected = true
  · rw [hsel] at h1
    simp only [if_true] at h1
    have := (List.mem_filter.mp h1).2
    simpa [bne_iff_ne] using this
  · have hsel2 : hasSelected = false := by
      cases hasSelected
      · rfl
      · exact absurd rfl hsel
    rw [hsel2] at h1
    simp only [Bool.false_eq_true, if_false] at h1
    have h2 := (List.mem_filter.mp h1).1
    have := (List.mem_filter.mp h2).2
    simpa [bne_iff_ne] using this

/-- Claim C4, amended: the sanitized batch keeps at most one reflection
call and (for any positive per-turn cap) at most `maxActionsPerTurn` calls
in total; the trimming order prefers NARROW actions over broad-search
actions — whenever a broad-search call survives the cap, every narrow call
of the filtered proposal survived too (equivalently, broad-search calls are
dropped first). -/
theorem sanitize_batch_amended (hasSelected : Bool) (cap : Nat) (proposed : List ToolCall)
    (hcap : 1 ≤ cap) :
    (sanitizeBatch hasSelected cap proposed).countP
        (fun tc => tc.name == "think_tool") ≤ 1 ∧
    (sanitizeBatch hasSelected cap proposed).length ≤ cap ∧
    (∀ b ∈ sanitizeBatch hasSelected cap proposed, isBroadCall b = true →
      ∀ n ∈ sanitizeRest hasSelected proposed, isBroadCall n = false →
        n ∈ sanitizeBatch hasSelected cap proposed) := by
  have hthinkLen : (sanitizeThink proposed).length ≤ 1 := by
    simp [sanitizeThink, List.length_take]
  refine ⟨?_, ?_, ?_⟩
  · -- at most one reflection call
    simp only [sanitizeBatch, List.countP_append]
    have h1 : (sanitizeThink proposed).countP (fun tc => tc.name == "think_tool") ≤ 1 :=
      le_trans (List.countP_le_length _) hthinkLen
    have h2 : ((sortByPlannerKey (sanitizeRest hasSelected proposed)).take
        (cap - (sanitizeThink proposed).length)).countP
          (fun tc => tc.name == "think_tool") = 0 := by
      rw [List.countP_eq_zero]
      intro tc htc
      have hmem : tc ∈ sortByPlannerKey (sanitizeRest hasSelected proposed) :=
        List.mem_of_mem_take htc
      have hmem2 : tc ∈ sanitizeRest hasSelected proposed :=
        (mem_sortByPlannerKey _ _).mp hmem
      simpa using mem_sanitizeRest_not_think hasSelected proposed tc hmem2
    omega
  · -- total size bound
    simp only [sanitizeBatch, List.length_append, List.length_take]
    omega
  · -- broad-search calls are only dropped after all narrow calls
    intro b hb hbroad n hn hnarrow
    have hbNotThink : b ∉ sanitizeThink proposed := by
      intro hmem
      have hname : (b.name == "think_tool") = true :=
        (List.mem_filter.mp (List.mem_of_mem_take hmem)).2
      have hname2 : b.name = "think_tool" := by simpa using hname
      rw [isBroadCall, hname2] at hbroad
      simp [broadSearchTools] at hbroad
    have hbTake : b ∈ (sortByPlannerKey (sanitizeRest hasSelected proposed)).take
        (cap - (sanitizeThink proposed).length) := by
      rcases List.mem_append.mp hb with h | h
      · exact absurd h hbNotThink
      · exact h
    set rest := sanitizeRest hasSelected proposed with hrest
    set m := cap - (sanitizeThink proposed).length with hm
    set narrowPart :=
      rest.filter (fun tc => plannerSortKey tc == 0) ++
        (rest.filter (fun tc => plannerSortKey tc == 1) ++
          rest.filter (fun tc => plannerSortKey tc == 2)) with hnp
    have hsplit : sortByPlannerKey rest =
        narrowPart ++ rest.filter (fun tc => plannerSortKey tc == 3) := by
      simp [sortByPlannerKey, hnp, List.append_assoc]
    have htake : (sortByPlannerKey rest).take m =
        narrowPart.take m ++
          (rest.filter (fun tc => plannerSortKey tc == 3)).take (m - narrowPart.length) := by
      rw [hsplit, List.take_append_eq_append_take]
    have hbNotNarrowPart : b ∉ narrowPart := by
      intro hmem
      have hkey := plannerSortKey_of_broad b hbroad
      simp only [hnp, List.mem_append, List.mem_filter] at hmem
      rcases hmem with ⟨_, hk⟩ | ⟨_, hk⟩ | ⟨_, hk⟩ <;> simp [hkey] at hk
    have hbLast : b ∈ (rest.filter (fun tc => plannerSortKey tc == 3)).take
        (m - narrowPart.length) := by
      rw [htake] at hbTake
      rcases List.mem_append.mp hbTake with h | h
      · exact absurd (List.mem_of_mem_take h) hbNotNarrowPart
      · exact h
    have hpos : 0 < m - narrowPart.length := by
      have hlen := List.length_pos_of_mem hbLast
      simp only [List.length_take] at hlen
      omega
    have hNle : narrowPart.length ≤ m := by omega
    have hnInNarrowPart : n ∈ narrowPart := by
      rcases plannerSortKey_of_narrow n hnarrow with h0 | h1
      · simp only [hnp, List.mem_append, List.mem_filter]
        exact Or.inl ⟨hn, by simp [h0]⟩
      · simp only [hnp, List.mem_append, List.mem_filter]
        exact Or.inr (Or.inl ⟨hn, by simp [h1]⟩)
    have hnInTake : n ∈ (sortByPlannerKey rest).take m := by
      rw [htake, List.take_of_length_le hNle]
      exact List.mem_append.mpr (Or.inl hnInNarrowPart)
    exact List.mem_append.mpr (Or.inr hnInTake)

/-- Witness for `sanitize_batch_amended` at the default per-turn cap 3. -/
theorem sanitize_batch_witness :
    (sanitizeBatch false 3
        [⟨("web_scraper"), ("http://x")⟩, ⟨("google_search"), ("")⟩]).length ≤ 3 :=
  (sanitize_batch_amended false 3
    [⟨("web_scraper"), ("http://x")⟩, ⟨("google_search"), ("")⟩] (by decide)).2.1

/-- Counterexample to claim C4 as stated: with a cap of one action, a
proposal of one narrow fetch and one broad search keeps the NARROW fetch
and drops the broad search — the trimming order prefers narrow actions,
not broad-search ones. -/
theorem sanitize_trim_order_counterexample :
    sanitizeBatch false 1 [⟨("web_scraper"), ("http://x")⟩, ⟨("google_search"), ("")⟩] =
      [⟨("web_scraper"), ("http://x")⟩] ∧
    isBroadCall ⟨("google_search"), ("")⟩ = true ∧
    isBroadCall ⟨("web_scraper"), ("http://x")⟩ = false := by
  refine ⟨by decide, by decide, by decide⟩

/-- The dedup loop only returns elements of its input. -/
theorem dedupGo_subset (l : List Cand) : ∀ seen : List String, ∀ d ∈ dedupGo seen l, d ∈ l := by
  induction l with
  | nil => intro seen d hd; simp [dedupGo] at hd
  | cons c rest ih =>
    intro seen d hd
    by_cases h : (candKey c == "" || seen.contains (candKey c)) = true
    · rw [dedupGo, if_pos h] at hd
      exact List.mem_cons_of_mem _ (ih seen d hd)
    · rw [dedupGo, if_neg h] at hd
      rcases List.mem_cons.mp hd with rfl | hd
      · exact List.mem_cons_self _ _
      · exact List.mem_cons_of_mem _ (ih _ d hd)

/-- A call surviving the `_is_blocked` filter that is a `web_scraper` fetch
targets a URL outside the rejected set. -/
theorem not_blocked_of_mem_filter (rejected : List String) (l : List ToolCall)
    (c : ToolCall) (h : c ∈ l.filter (fun x => !(isBlockedCall rejected x)))
    (hn : c.name = "web_scraper") : c.argUrl ∉ rejected := by
  have h2 := (List.mem_filter.mp h).2
  simp only [isBlockedCall, hn, Bool.not_eq_true'] at h2
  simpa using h2

/-- Claim C3, amended: the dispatch side of the rejection invariant holds —
no dispatched batch (image, non-image or other wave) ever contains a
`web_scraper` fetch of a rejected URL — and structurally extracted SERP
candidates with a rejected URL are filtered out before dedup; but the
LLM extraction passes are NOT filtered against the rejected set, so a
candidate re-proposed by them can carry a rejected URL (see the
counterexample). -/
theorem rejection_blocking_amended :
    (∀ (hasSelected imageUrlPresent imageProbeDone : Bool) (rejected : List String)
        (used maxSerp : Nat) (calls : List ToolCall) (c : ToolCall),
      (c ∈ (planDispatch hasSelected imageUrlPresent imageProbeDone rejected used maxSerp
              calls).imageCalls ∨
        c ∈ (planDispatch hasSelected imageUrlPresent imageProbeDone rejected used maxSerp
              calls).nonimageCalls ∨
        c ∈ (planDispatch hasSelected imageUrlPresent imageProbeDone rejected used maxSerp
              calls).otherCalls) →
      c.name = "web_scraper" → c.argUrl ∉ rejected) ∧
    (∀ (rejected : List String) (serpExtracted : List Cand) (c : Cand),
      c ∈ turnCandidates rejected serpExtracted [] [] → c.url ∉ rejected) := by
  constructor
  · intro hasSelected imageUrlPresent imageProbeDone rejected used maxSerp calls c hmem hname
    simp only [planDispatch] at hmem
    rcases hmem with h | h | h
    · exact not_blocked_of_mem_filter rejected _ c (List.mem_of_mem_take h) hname
    · exact not_blocked_of_mem_filter rejected _ c (List.mem_of_mem_take h) hname
    · exact not_blocked_of_mem_filter rejected _ c h hname
  · intro rejected serpExtracted c hc
    simp only [turnCandidates, List.append_nil] at hc
    have hcmem : c ∈ dedupCands (dedupCands
        (serpExtracted.filter (fun x => !(rejected.contains x.url)))) := by
      by_cases hemp : (dedupCands (dedupCands
          (serpExtracted.filter (fun x => !(rejected.contains x.url))))).isEmpty = true
      · rw [if_neg (by rw [hemp]; decide)] at hc
        simp [dedupCands, dedupGo] at hc
      · have hemp2 : (dedupCands (dedupCands
            (serpExtracted.filter (fun x => !(rejected.contains x.url))))).isEmpty = false := by
          simpa using hemp
        rwa [if_pos (by rw [hemp2]; decide)] at hc
    have h1 := dedupGo_subset _ [] c hcmem
    have h2 := dedupGo_subset _ [] c h1
    have h3 := (List.mem_filter.mp h2).2
    simpa using h3

/-- Witness for `rejection_blocking_amended`: a structurally extracted
candidate that survives the turn pipeline targets a non-rejected URL. -/
theorem rejection_blocking_witness :
    (⟨("Ok"), ("http://ok"), ("w")⟩ : Cand).url ∉ [("http://bad")] :=
  rejection_blocking_amended.2 [("http://bad")] [⟨("Ok"), ("http://ok"), ("w")⟩]
    ⟨("Ok"), ("http://ok"), ("w")⟩ (by decide)

/-- Counterexample to claim C3 as stated: when the structural pass yields
nothing, the summary-extraction LLM pass's candidates are deduplicated but
never filtered against `rejected_urls`, so a candidate carrying an already
rejected URL is returned (and, being nonempty, surfaces to the human). -/
theorem rejected_url_resurfaces_counterexample :
    (⟨("Alice"), ("http://rejected.example"), ("seen before")⟩ : Cand) ∈
      turnCandidates [("http://rejected.example")] [] []
        [⟨("Alice"), ("http://rejected.example"), ("seen before")⟩] ∧
    ("http://rejected.example") ∈
      (turnCandidates [("http://rejected.example")] [] []
        [⟨("Alice"), ("http://rejected.example"), ("seen before")⟩]).map
        (fun c => c.url) := by
  refine ⟨by decide, by decide⟩

/-- Mean of four equal confidences. -/
theorem aggregateConfidences_four :
    aggregateConfidences [(9:ℚ)/10, 9/10, 9/10, 9/10] = 9/10 := by
  have hne : ([(9:ℚ)/10, 9/10, 9/10, 9/10] = []) = False := by simp
  simp only [aggregateConfidences, hne, if_false, List.sum_cons, List.sum_nil,
    List.length_cons, List.length_nil]
  norm_num

/-- Mean of three equal confidences. -/
theorem aggregateConfidences_three :
    aggregateConfidences [(9:ℚ)/10, 9/10, 9/10] = 9/10 := by
  have hne : ([(9:ℚ)/10, 9/10, 9/10] = []) = False := by simp
  simp only [aggregateConfidences, hne, if_false, List.sum_cons, List.sum_nil,
    List.length_cons, List.length_nil]
  norm_num

/-- Claim C1, amended: over a non-empty candidate list the judge's returned
pause flag is true exactly when the winner index is none OR the aggregate
confidence is strictly below the pause threshold.  The measured
position-bias rate does NOT enter the judge's flag (see the
counterexample); the supervisor applies the `0.20` bias alarm separately
when deciding auto-selection versus `awaiting_disambiguation`. -/
theorem judge_pause_rule (cands : List Cand) (committee : List Cand → List ModelBlock)
    (t : ℚ) (h : cands ≠ []) :
    ((judgeCandidates cands committee t).shouldPauseForHuman = true ↔
      ((judgeCandidates cands committee t).winnerIndex = none ∨
        (judgeCandidates cands committee t).confidence < t)) := by
  have hne : (normalizeCandidates cands).isEmpty = false := by
    cases cands with
    | nil => exact absurd rfl h
    | cons c cs => simp [normalizeCandidates]
  simp only [judgeCandidates, hne, Bool.false_eq_true, if_false, judgeDecision]
  simp [Option.isNone_iff_eq_none]

/-- Witness for `judge_pause_rule`: one candidate, an empty committee, the
default threshold. -/
theorem judge_pause_rule_witness :
    ((judgeCandidates [candA] emptyCommittee (6/10)).shouldPauseForHuman = true ↔
      ((judgeCandidates [candA] emptyCommittee (6/10)).winnerIndex = none ∨
        (judgeCandidates [candA] emptyCommittee (6/10)).confidence < 6/10)) :=
  judge_pause_rule [candA] emptyCommittee (6/10) (by decide)

/-- Counterexample to claim C1 as stated: a committee with a unique
plurality winner, aggregate confidence `9/10 ≥ 0.60`, and a measured
position-bias rate of `1/2 ≥ 0.20` still returns `shouldPause = false` —
the bias term claimed to be part of the decision is absent from
`judge_candidates`. -/
theorem judge_pause_bias_counterexample :
    (judgeCandidates [candA, candB] biasedCommittee (6/10)).shouldPauseForHuman = false ∧
    (judgeCandidates [candA, candB] biasedCommittee (6/10)).winnerIndex = some 0 ∧
    ¬((judgeCandidates [candA, candB] biasedCommittee (6/10)).confidence < 6/10) ∧
    (2/10 : ℚ) ≤ positionBiasRate (normalizeCandidates [candA, candB])
        (biasedCommittee (normalizeCandidates [candA, candB])) := by
  have hconfRfl : (judgeCandidates [candA, candB] biasedCommittee (6/10)).confidence =
      aggregateConfidences [(9:ℚ)/10, 9/10, 9/10, 9/10] := rfl
  have hnot : ¬(aggregateConfidences [(9:ℚ)/10, 9/10, 9/10, 9/10] < 6/10) := by
    rw [aggregateConfidences_four]
    norm_num
  refine ⟨?_, by decide, ?_, ?_⟩
  · have hpauseRfl :
        (judgeCandidates [candA, candB] biasedCommittee (6/10)).shouldPauseForHuman =
          ((some 0 : Option Nat).isNone ||
            decide (aggregateConfidences [(9:ℚ)/10, 9/10, 9/10, 9/10] < 6/10)) := rfl
    rw [hpauseRfl]
    simp [hnot]
  · rw [hconfRfl]
    exact hnot
  · have hpairs : biasComparablePairs (normalizeCandidates [candA, candB])
        (biasedCommittee (normalizeCandidates [candA, candB])) = [(0, 1), (0, 0)] := by
      decide
    have hflips : ([((0 : Nat), (1 : Nat)), (0, 0)].filter (fun p => p.1 != p.2)) =
        [(0, 1)] := by decide
    simp only [positionBiasRate, hpairs, hflips]
    norm_num

/-- The confidence list collected by the tally loop is exactly the
confidence of every counted invocation, in committee order. -/
theorem tallyVotes_confidences (candList : List Cand) (invs : List Invocation) :
    (tallyVotes candList invs).2 =
      (countedInvocations candList invs).map (fun inv => inv.confidence) := by
  suffices h : ∀ (l : List Invocation) (acc : List (Nat × Nat) × List ℚ),
      (l.foldl
        (fun acc inv =>
          match mapIndex candList inv.runCands inv.winnerIndex with
          | some m => (bumpVote acc.1 m, acc.2 ++ [inv.confidence])
          | none => acc)
        acc).2 = acc.2 ++ (countedInvocations candList l).map (fun inv => inv.confidence) by
    simpa [tallyVotes] using h invs ([], [])
  intro l
  induction l with
  | nil => intro acc; simp [countedInvocations]
  | cons inv rest ih =>
    intro acc
    simp only [List.foldl_cons, countedInvocations, List.filter_cons]
    cases hmi : mapIndex candList inv.runCands inv.winnerIndex with
    | some m => simp [hmi, ih, countedInvocations]
    | none => simp [hmi, ih, countedInvocations]

/-- Claim C6: the adjudication's aggregate confidence is the arithmetic
mean of the confidences of every counted invocation (every invocation
whose local winner mapped back to an original index), `0` when there are
none; and Scenario A holds: one candidate, three evaluators all voting
index 0 with confidence `9/10`, yields winner 0, confidence `9/10`, no
pause. -/
theorem confidence_mean_and_scenarioA :
    (∀ (candList : List Cand) (committeeOut : List ModelBlock) (t : ℚ),
      (judgeDecision candList committeeOut t).confidence =
        specMeanCountedConfidence candList committeeOut) ∧
    (judgeCandidates scenarioACands scenarioACommittee (6/10)).winnerIndex = some 0 ∧
    (judgeCandidates scenarioACands scenarioACommittee (6/10)).confidence = 9/10 ∧
    (judgeCandidates scenarioACands scenarioACommittee (6/10)).shouldPauseForHuman
      = false := by
  have hnot : ¬(aggregateConfidences [(9:ℚ)/10, 9/10, 9/10] < 6/10) := by
    rw [aggregateConfidences_three]
    norm_num
  refine ⟨?_, by decide, ?_, ?_⟩
  · intro candList committeeOut t
    simp only [judgeDecision, specMeanCountedConfidence, aggregateConfidences,
      tallyVotes_confidences]
  · have hconfRfl : (judgeCandidates scenarioACands scenarioACommittee (6/10)).confidence =
        aggregateConfidences [(9:ℚ)/10, 9/10, 9/10] := rfl
    rw [hconfRfl]
    exact aggregateConfidences_three
  · have hpauseRfl :
        (judgeCandidates scenarioACands scenarioACommittee (6/10)).shouldPauseForHuman =
          ((some 0 : Option Nat).isNone ||
            decide (aggregateConfidences [(9:ℚ)/10, 9/10, 9/10] < 6/10)) := rfl
    rw [hpauseRfl]
    simp [hnot]

end IdentRev
